import Mathlib

/-!
Verification of the color-harmony scoring engine of the ImageClassifier
repository.  The Python sources in
src/image_classifier/processing/color_harmony.py,
src/image_classifier/controller.py and src/image_classifier/color.py are
embedded shallowly: every angle, score, and Lab component is modelled as a
real number (the idealization of Python floats as exact real arithmetic),
Python lists become Lean lists, and the running best-score loops become
left folds.  Definitions keep the names of the source functions.
-/

namespace ImageClassifier

/-- Real analogue of the Python modulo operator on floats: for a positive
modulus y the result x - y * floor (x / y) lies in the interval [0, y). -/
noncomputable def fmod (x y : ℝ) : ℝ := x - y * ⌊x / y⌋

/-- Embedding of circular_diff (color_harmony.py, lines 10-18): the smallest
difference between two angles in degrees, accounting for wrap-around. -/
noncomputable def circular_diff (a b : ℝ) : ℝ :=
  let diff := fmod |a - b| 360
  if diff ≤ 180 then diff else 360 - diff

/-- Embedding of circular_mean (color_harmony.py, lines 21-58).  The empty
and two-element branches are exact rational arithmetic; the branch for any
other length sums unit vectors with real sine and cosine (the idealization
of math.sin, math.cos, math.atan2; atan2 y x is the complex argument of
x + y*i, and math.degrees multiplies by 180 / pi). -/
noncomputable def circular_mean (angles : List ℝ) : ℝ :=
  match angles with
  | [] => 0
  | [x, y] =>
    let a1 := fmod x 360
    let a2 := fmod y 360
    let diff := circular_diff a1 a2
    if |diff - 180| < 1e-10 then fmod ((a1 + a2) / 2) 360
    else if fmod (a2 - a1) 360 ≤ 180 then fmod (a1 + diff / 2) 360
    else fmod (a1 - diff / 2) 360
  | a :: rest =>
    let sin_sum := ((a :: rest).map (fun t => Real.sin (t * Real.pi / 180))).sum
    let cos_sum := ((a :: rest).map (fun t => Real.cos (t * Real.pi / 180))).sum
    if |sin_sum| < 1e-14 ∧ |cos_sum| < 1e-14 then a
    else fmod ((Complex.arg (cos_sum + sin_sum * Complex.I)) * 180 / Real.pi) 360

/-- Python max over a list (defined for nonempty lists in Python; the empty
case, on which the sources never call it, is totalized to 0). -/
def pymax (l : List ℝ) : ℝ :=
  match l with
  | [] => 0
  | h :: t => t.foldl max h

/-- Python min over a list, totalized like pymax. -/
def pymin (l : List ℝ) : ℝ :=
  match l with
  | [] => 0
  | h :: t => t.foldl min h

/-- Rotation of a list: the Python idiom sorted_hues[i:] + sorted_hues[:i]. -/
def rotate (l : List ℝ) (i : ℕ) : List ℝ := l.drop i ++ l.take i

/-- The running best-score loop shared by the searching scorers: starting
from best_score = 0.0 and an empty explanation (None), each candidate
replaces the state exactly when its score is strictly greater. -/
noncomputable def runBest {β : Type} (cands : List (ℝ × β)) : ℝ × Option β :=
  cands.foldl (fun st c => if st.1 < c.1 then (c.1, some c.2) else st) (0, none)

/-- The running minimum loop of score_analogous: min_arc starts at infinity
(modelled by the state none), and each candidate with a strictly smaller
first component replaces the state. -/
noncomputable def runMin (cands : List (ℝ × ℝ)) : Option (ℝ × ℝ) :=
  cands.foldl
    (fun st c =>
      match st with
      | none => some c
      | some m => if c.1 < m.1 then some c else some m)
    none

/-- Python sorted on floats (a stable sort; on a linear order the result is
the unique sorted permutation, so insertion sort models it exactly). -/
noncomputable def pysorted (l : List ℝ) : List ℝ := List.insertionSort (· ≤ ·) l

/-- Score of one rotation [p, q, r] inside score_triadic: the three circular
gaps are compared with the ideal 120 degrees and normalized by
3 * tolerance. -/
noncomputable def triadicCandidate (tolerance p q r : ℝ) : ℝ :=
  let diff1 := circular_diff p q
  let diff2 := circular_diff q r
  let diff3 := circular_diff r p
  let total_error := |diff1 - 120| + |diff2 - 120| + |diff3 - 120|
  max 0 (1 - total_error / (3 * tolerance))

/-- Embedding of score_triadic (color_harmony.py, lines 61-98).  A palette
without exactly 3 hues scores (0.0, None); otherwise the three rotations of
the sorted hues are tried and the best strictly-positive score is recorded
together with the first hue of the winning rotation. -/
noncomputable def score_triadic (hues : List ℝ) (tolerance : ℝ := 30) :
    ℝ × Option ℝ :=
  match pysorted hues with
  | [a, b, c] =>
    runBest [(triadicCandidate tolerance a b c, a),
             (triadicCandidate tolerance b c a, b),
             (triadicCandidate tolerance c a b, c)]
  | _ => (0, none)

/-- Score of one rotation [p, q, r, s] inside score_square: the four circular
gaps are compared with the ideal 90 degrees and normalized by
4 * tolerance. -/
noncomputable def squareCandidate (tolerance p q r s : ℝ) : ℝ :=
  let d1 := circular_diff p q
  let d2 := circular_diff q r
  let d3 := circular_diff r s
  let d4 := circular_diff s p
  let total_error := |d1 - 90| + |d2 - 90| + |d3 - 90| + |d4 - 90|
  max 0 (1 - total_error / (4 * tolerance))

/-- Embedding of score_square (color_harmony.py, lines 101-134). -/
noncomputable def score_square (hues : List ℝ) (tolerance : ℝ := 15) :
    ℝ × Option ℝ :=
  match pysorted hues with
  | [a, b, c, d] =>
    runBest [(squareCandidate tolerance a b c d, a),
             (squareCandidate tolerance b c d a, b),
             (squareCandidate tolerance c d a b, c),
             (squareCandidate tolerance d a b c, d)]
  | _ => (0, none)

/-- Embedding of score_analogous (color_harmony.py, lines 137-167): for each
rotation of the sorted hues the arc from the first to the last element is
measured with circular_diff, the smallest one wins, and the score decreases
linearly in the winning arc. -/
noncomputable def score_analogous (hues : List ℝ) (threshold : ℝ := 120) :
    ℝ × (Option ℝ × Option ℝ) :=
  if hues = [] then (0, (none, none)) else
  let sorted_hues := pysorted hues
  let cands := (List.range hues.length).map (fun i =>
    let rotated := rotate sorted_hues i
    (circular_diff (rotated.headD 0) (rotated.getLastD 0), rotated.headD 0))
  match runMin cands with
  | some (min_arc, best_start) =>
    (max 0 (1 - min_arc / threshold), (some best_start, some min_arc))
  | none => (0, (none, none))

/-- Spread of a cluster in score_complementary: max minus min for clusters
with more than one element, 0 otherwise. -/
def spread (cluster : List ℝ) : ℝ :=
  if 1 < cluster.length then pymax cluster - pymin cluster else 0

/-- Score of one split of a rotation into two contiguous clusters inside
score_complementary: the deviation of the circular distance of the two
cluster means from 180 is combined (weight 0.7) with the average spread
(weight 0.3), both normalized by their tolerances. -/
noncomputable def compCandidate (tolerance_mean tolerance_spread : ℝ)
    (cluster1 cluster2 : List ℝ) : ℝ :=
  let mean1 := circular_mean cluster1
  let mean2 := circular_mean cluster2
  let error_mean := |circular_diff mean1 mean2 - 180|
  let avg_spread := (spread cluster1 + spread cluster2) / 2
  let total_error :=
    0.7 * (error_mean / tolerance_mean) + 0.3 * (avg_spread / tolerance_spread)
  max 0 (1 - total_error)

/-- Embedding of score_complementary (color_harmony.py, lines 170-241).
Fewer than 2 hues score (0.0, None); exactly 2 hues are compared directly;
3 or more hues are sorted and every rotation is cut at every position
k = 1 .. n-1 into two contiguous clusters. -/
noncomputable def score_complementary (hues : List ℝ) (tolerance_mean : ℝ := 60)
    (tolerance_spread : ℝ := 120) : ℝ × Option (List ℝ × List ℝ × ℝ × ℝ) :=
  match hues with
  | [] => (0, none)
  | [_] => (0, none)
  | [h1, h2] =>
    let diff := circular_diff h1 h2
    (max 0 (1 - |diff - 180| / tolerance_mean), some ([h1], [h2], h1, h2))
  | _ =>
    let n := hues.length
    let sorted_hues := pysorted hues
    let cands := (List.range n).flatMap (fun i =>
      let rotated := rotate sorted_hues i
      (List.range' 1 (n - 1)).map (fun k =>
        let cluster1 := rotated.take k
        let cluster2 := rotated.drop k
        (compCandidate tolerance_mean tolerance_spread cluster1 cluster2,
         (cluster1, cluster2, circular_mean cluster1, circular_mean cluster2))))
    runBest cands

/-- The list of pairwise circular differences of a cluster, in the order of
the two nested loops of cluster_spread in score_split_complementary. -/
noncomputable def pairwiseDiffs : List ℝ → List ℝ
  | [] => []
  | h :: t => t.map (fun x => circular_diff h x) ++ pairwiseDiffs t

/-- cluster_spread inside score_split_complementary: the maximum pairwise
circular difference of a cluster, 0 for singleton clusters. -/
noncomputable def cluster_spread (cluster : List ℝ) : ℝ :=
  if cluster.length = 1 then 0 else (pairwiseDiffs cluster).foldl max 0

/-- Score and recorded arrangement of one 3-way split inside
score_split_complementary: the two split clusters are assigned to the
targets base + 150 and base + 210 in the better of the two ways, angle and
spread errors fall off quadratically with weights 0.65 and 0.35, and the
recorded arrangement swaps the split clusters when the second assignment is
strictly better and snaps a base mean of 360 to 0. -/
noncomputable def splitCandidate (tolerance_mean tolerance_spread : ℝ)
    (base_cluster split1_cluster split2_cluster : List ℝ) :
    ℝ × (List ℝ × List ℝ × List ℝ × ℝ × ℝ × ℝ) :=
  let base_mean := circular_mean base_cluster
  let split1_mean := circular_mean split1_cluster
  let split2_mean := circular_mean split2_cluster
  let target1 := fmod (base_mean + 150) 360
  let target2 := fmod (base_mean + 210) 360
  let error1 := (circular_diff split1_mean target1 + circular_diff split2_mean target2) / 2
  let error2 := (circular_diff split1_mean target2 + circular_diff split2_mean target1) / 2
  let angle_error := min error1 error2
  let avg_spread := (cluster_spread base_cluster + cluster_spread split1_cluster
    + cluster_spread split2_cluster) / 3
  let total_error := 0.65 * (angle_error / tolerance_mean) ^ 2
    + 0.35 * (avg_spread / tolerance_spread) ^ 2
  let score := max 0 (1 - total_error)
  let bm := if |base_mean - 360| < 1e-10 then 0 else base_mean
  if error2 < error1 then
    (score, (base_cluster, split2_cluster, split1_cluster, bm, split2_mean, split1_mean))
  else
    (score, (base_cluster, split1_cluster, split2_cluster, bm, split1_mean, split2_mean))

/-- Embedding of score_split_complementary (color_harmony.py, lines 244-356).
Fewer than 3 hues score (0.0, None); otherwise the hues are normalized with
mod 360, sorted, and every rotation is cut at every pair of positions
1 <= j < k <= n-1 into three contiguous clusters (the emptiness guard of the
source is vacuous for these index ranges:
j >= 1, k > j and k <= n-1 already force all three clusters nonempty). -/
noncomputable def score_split_complementary (hues : List ℝ)
    (tolerance_mean : ℝ := 15) (tolerance_spread : ℝ := 45) :
    ℝ × Option (List ℝ × List ℝ × List ℝ × ℝ × ℝ × ℝ) :=
  if hues.length < 3 then (0, none) else
  let normalized_hues := hues.map (fun h => fmod h 360)
  let sorted_hues := pysorted normalized_hues
  let n := sorted_hues.length
  let cands := (List.range n).flatMap (fun i =>
    let rotated := rotate sorted_hues i
    (List.range' 1 (n - 2)).flatMap (fun j =>
      (List.range' (j + 1) (n - 1 - j)).map (fun k =>
        splitCandidate tolerance_mean tolerance_spread
          (rotated.take j) ((rotated.drop j).take (k - j)) (rotated.drop k))))
  runBest cands

/-- Embedding of score_monochromatic (color_harmony.py, lines 433-460): the
naive range of the hues, wrap-adjusted when it exceeds 180, mapped linearly
to a score, together with the circular mean for visualization. -/
noncomputable def score_monochromatic (hues : List ℝ) (tolerance : ℝ := 120) :
    ℝ × Option ℝ :=
  match hues with
  | [] => (0, none)
  | _ =>
    let min_hue := pymin hues
    let max_hue := pymax hues
    let diff0 := max_hue - min_hue
    let diff := if 180 < diff0 then 360 - diff0 else diff0
    (max 0 (1 - diff / tolerance), some (circular_mean hues))

/-- Model of a Color of src/image_classifier/color.py: the class stores an
RGB triple of Python integers.  Modelled from the spec: the Lab
representation is produced by OpenCV, an external collaborator excluded
from this core, so the Lab triple (L, a, b) a color exposes is carried as
data rather than computed. -/
structure PyColor where
  rgb : ℤ × ℤ × ℤ
  lab : ℝ × ℝ × ℝ

/-- The reference algorithm of colorsys.rgb_to_hsv from the Python standard
library (an external collaborator of color.py), on components already
scaled to [0, 1]: value is the maximum component, saturation the relative
range, and the hue sector is picked by the maximal component, finally
reduced with mod 1. -/
noncomputable def colorsys_rgb_to_hsv (r g b : ℝ) : ℝ × ℝ × ℝ :=
  let maxc := max r (max g b)
  let minc := min r (min g b)
  let v := maxc
  if minc = maxc then (0, 0, v) else
  let s := (maxc - minc) / maxc
  let rc := (maxc - r) / (maxc - minc)
  let gc := (maxc - g) / (maxc - minc)
  let bc := (maxc - b) / (maxc - minc)
  let h := if r = maxc then bc - gc else if g = maxc then rc - bc else gc - rc
  (fmod (h / 6) 1, s, v)

/-- Python round on floats: round half to even (banker's rounding). -/
noncomputable def pyRound (x : ℝ) : ℤ :=
  if Int.fract x < 1 / 2 then ⌊x⌋
  else if 1 / 2 < Int.fract x then ⌊x⌋ + 1
  else if Even ⌊x⌋ then ⌊x⌋ else ⌊x⌋ + 1

/-- Embedding of Color._rgb_to_hsv (color.py, lines 75-87): scale the RGB
components to [0, 1], convert with colorsys, and return the hue in degrees
0 .. 359 and saturation and value scaled back to 0 .. 255. -/
noncomputable def rgb_to_hsv (c : ℤ × ℤ × ℤ) : ℤ × ℤ × ℤ :=
  let t := colorsys_rgb_to_hsv ((c.1 : ℝ) / 255) ((c.2.1 : ℝ) / 255) ((c.2.2 : ℝ) / 255)
  (pyRound (t.1 * 360) % 360, pyRound (t.2.1 * 255), pyRound (t.2.2 * 255))

/-- The hsv property of a Color (color.py, lines 106-111). -/
noncomputable def hsv (c : PyColor) : ℤ × ℤ × ℤ := rgb_to_hsv c.rgb

/-- Embedding of score_saturation_absolute (color_harmony.py, lines
359-406): lightness-weighted average chroma, normalized by the calibration
constant 120 and clamped to [0, 1]. -/
noncomputable def score_saturation_absolute (colors : List PyColor) : ℝ :=
  if colors.isEmpty then 0 else
  let max_chroma : ℝ := 120
  let total_weighted_chroma := (colors.map (fun c =>
    Real.sqrt ((c.lab.2.1 - 128) ^ 2 + (c.lab.2.2 - 128) ^ 2) * (c.lab.1 / 255))).sum
  let total_weight := (colors.map (fun c => c.lab.1 / 255)).sum
  if total_weight = 0 then 0 else
  min (max (total_weighted_chroma / total_weight / max_chroma) 0) 1

/-- Embedding of score_contrast_absolute (color_harmony.py, lines 409-430):
the range of the L channel normalized by 255 and clamped to [0, 1]. -/
noncomputable def score_contrast_absolute (colors : List PyColor) : ℝ :=
  if colors.isEmpty then 0 else
  let L_values := colors.map (fun c => c.lab.1)
  min (max ((pymax L_values - pymin L_values) / 255) 0) 1

/-- Embedding of analyze_palette_harmony (controller.py, lines 60-75): hues
are the first components of the hsv triples of the palette, every scorer
runs with its default tolerances, and the insertion-ordered dict becomes an
ordered association list. -/
noncomputable def analyze_palette_harmony (palette : List PyColor) :
    List (String × ℝ) :=
  let hues := palette.map (fun c => (((hsv c).1 : ℤ) : ℝ))
  [("Triadic", (score_triadic hues).1),
   ("Square", (score_square hues).1),
   ("Complementary", (score_complementary hues).1),
   ("Split Complementary", (score_split_complementary hues).1),
   ("Monochromatic", (score_monochromatic hues).1),
   ("Contrast", score_contrast_absolute palette),
   ("Saturation", score_saturation_absolute palette)]

/-- Modelled from the spec: the size of the smallest circular arc that
contains all the input hues.  Placing the points on the circle (mod 360)
and sorting them, the arc starting at any point and running forward to its
cyclic predecessor contains every point; the smallest such arc is the
smallest containing arc. -/
noncomputable def specSmallestContainingArc (hues : List ℝ) : ℝ :=
  let s := pysorted (hues.map (fun h => fmod h 360))
  match (List.range s.length).map (fun i =>
      fmod ((rotate s i).getLastD 0 - (rotate s i).headD 0) 360) with
  | [] => 0
  | w :: ws => ws.foldl min w

/-! Basic properties of fmod. -/

lemma fmod_eq_fract (x : ℝ) {y : ℝ} (hy : y ≠ 0) : fmod x y = y * Int.fract (x / y) := by
  unfold fmod Int.fract
  rw [mul_sub, mul_div_cancel₀ x hy]

lemma fmod_nonneg (x : ℝ) {y : ℝ} (hy : 0 < y) : 0 ≤ fmod x y := by
  rw [fmod_eq_fract x hy.ne']
  exact mul_nonneg hy.le (Int.fract_nonneg _)

lemma fmod_lt (x : ℝ) {y : ℝ} (hy : 0 < y) : fmod x y < y := by
  rw [fmod_eq_fract x hy.ne']
  nlinarith [Int.fract_lt_one (x / y)]

lemma fmod_eq_self {x y : ℝ} (h0 : 0 ≤ x) (h1 : x < y) : fmod x y = x := by
  have hy : 0 < y := lt_of_le_of_lt h0 h1
  have hfl : ⌊x / y⌋ = 0 := by
    rw [Int.floor_eq_zero_iff]
    exact ⟨div_nonneg h0 hy.le, (div_lt_one hy).2 h1⟩
  unfold fmod
  rw [hfl]
  simp

lemma fmod_add_int_mul (x : ℝ) {y : ℝ} (hy : y ≠ 0) (k : ℤ) :
    fmod (x + y * k) y = fmod x y := by
  rw [fmod_eq_fract _ hy, fmod_eq_fract x hy]
  congr 1
  rw [add_div, mul_div_cancel_left₀ (k : ℝ) hy]
  exact Int.fract_add_int _ _

lemma fmod360_eq {x r : ℝ} (k : ℤ) (h : x = r + 360 * k) (h0 : 0 ≤ r)
    (h1 : r < 360) : fmod x 360 = r := by
  subst h
  rw [fmod_add_int_mul r (by norm_num) k, fmod_eq_self h0 h1]

lemma fmod_eq_zero_iff_fract {x y : ℝ} (hy : y ≠ 0) :
    fmod x y = 0 ↔ Int.fract (x / y) = 0 := by
  rw [fmod_eq_fract x hy]
  exact mul_eq_zero.trans (by simp [hy])

lemma fmod_neg (x : ℝ) {y : ℝ} (hy : 0 < y) :
    fmod (-x) y = if fmod x y = 0 then 0 else y - fmod x y := by
  rcases eq_or_ne (fmod x y) 0 with h | h
  · rw [if_pos h]
    have hf : Int.fract (x / y) = 0 := (fmod_eq_zero_iff_fract hy.ne').1 h
    rw [fmod_eq_fract _ hy.ne', neg_div, Int.fract_neg_eq_zero.2 hf, mul_zero]
  · rw [if_neg h]
    have hf : Int.fract (x / y) ≠ 0 := fun hc => h ((fmod_eq_zero_iff_fract hy.ne').2 hc)
    rw [fmod_eq_fract _ hy.ne', neg_div, Int.fract_neg hf, fmod_eq_fract x hy.ne']
    ring

/-! Basic properties of circular_diff. -/

lemma circular_diff_comm (a b : ℝ) : circular_diff a b = circular_diff b a := by
  unfold circular_diff
  rw [abs_sub_comm]

lemma circular_diff_self (a : ℝ) : circular_diff a a = 0 := by
  unfold circular_diff
  simp [fmod_eq_self (le_refl (0:ℝ)) (by norm_num : (0:ℝ) < 360)]

/-- Normal form of circular_diff: it is the smaller of the forward and the
backward distance between the two angle classes. -/
lemma circular_diff_eq_min (a b : ℝ) :
    circular_diff a b = min (fmod (a - b) 360) (360 - fmod (a - b) 360) := by
  have h0 : 0 ≤ fmod (a - b) 360 := fmod_nonneg _ (by norm_num)
  have h1 : fmod (a - b) 360 < 360 := fmod_lt _ (by norm_num)
  unfold circular_diff
  rcases le_total b a with hab | hab
  · rw [abs_of_nonneg (by linarith)]
    dsimp only
    split_ifs with h
    · exact (min_eq_left (by linarith)).symm
    · exact (min_eq_right (by linarith)).symm
  · rw [abs_of_nonpos (by linarith), fmod_neg (a - b) (by norm_num)]
    rcases eq_or_ne (fmod (a - b) 360) 0 with h | h
    · rw [if_pos h, h]
      norm_num
    · rw [if_neg h]
      have h2 : 0 < fmod (a - b) 360 := lt_of_le_of_ne h0 (Ne.symm h)
      dsimp only
      split_ifs with hle
      · exact (min_eq_right (by linarith)).symm
      · have : 360 - (360 - fmod (a - b) 360) = fmod (a - b) 360 := by ring
        rw [this]
        exact (min_eq_left (by linarith)).symm

lemma circular_diff_nonneg (a b : ℝ) : 0 ≤ circular_diff a b := by
  rw [circular_diff_eq_min]
  have h0 : 0 ≤ fmod (a - b) 360 := fmod_nonneg _ (by norm_num)
  have h1 : fmod (a - b) 360 < 360 := fmod_lt _ (by norm_num)
  exact le_min h0 (by linarith)

lemma circular_diff_le_180 (a b : ℝ) : circular_diff a b ≤ 180 := by
  rw [circular_diff_eq_min]
  rcases le_total (fmod (a - b) 360) 180 with h | h
  · exact le_trans (min_le_left _ _) h
  · exact le_trans (min_le_right _ _) (by linarith)

lemma circular_diff_add_180 (a : ℝ) : circular_diff a (a + 180) = 180 := by
  unfold circular_diff
  have : |a - (a + 180)| = (180 : ℝ) := by
    rw [abs_sub_comm]
    norm_num
  rw [this, fmod_eq_self (by norm_num) (by norm_num)]
  norm_num

lemma circular_diff_fmod_left (a b : ℝ) :
    circular_diff (fmod a 360) b = circular_diff a b := by
  rw [circular_diff_eq_min, circular_diff_eq_min]
  have key : fmod (fmod a 360 - b) 360 = fmod (a - b) 360 := by
    have h : fmod a 360 - b = (a - b) + 360 * (-⌊a / 360⌋ : ℤ) := by
      unfold fmod
      push_cast
      ring
    rw [h, fmod_add_int_mul _ (by norm_num)]
  rw [key]

lemma circular_diff_fmod_right (a b : ℝ) :
    circular_diff a (fmod b 360) = circular_diff a b := by
  rw [circular_diff_comm, circular_diff_fmod_left, circular_diff_comm]

/-! Properties of the running best-score fold. -/

lemma le_foldl_max (l : List ℝ) (b : ℝ) : b ≤ l.foldl max b := by
  induction l generalizing b with
  | nil => exact le_refl b
  | cons h t ih => exact le_trans (le_max_left b h) (ih (max b h))

lemma mem_le_foldl_max {l : List ℝ} {x : ℝ} (hx : x ∈ l) (b : ℝ) :
    x ≤ l.foldl max b := by
  induction l generalizing b with
  | nil => cases hx
  | cons h t ih =>
    rcases List.mem_cons.1 hx with rfl | hmem
    · exact le_trans (le_max_right b x) (le_foldl_max t (max b x))
    · exact ih hmem (max b h)

lemma foldl_max_le {l : List ℝ} {m b : ℝ} (hb : b ≤ m) (h : ∀ x ∈ l, x ≤ m) :
    l.foldl max b ≤ m := by
  induction l generalizing b with
  | nil => exact hb
  | cons c t ih =>
    exact ih (max_le hb (h c (List.mem_cons_self c t))) fun x hx => h x (List.mem_cons_of_mem c hx)

lemma foldl_max_choice (l : List ℝ) (b : ℝ) :
    l.foldl max b = b ∨ l.foldl max b ∈ l := by
  induction l generalizing b with
  | nil => exact Or.inl rfl
  | cons c t ih =>
    rcases ih (max b c) with h | h
    · rcases max_choice b c with hm | hm
      · exact Or.inl (by rw [List.foldl_cons, h, hm])
      · exact Or.inr (by rw [List.foldl_cons, h, hm]; exact List.mem_cons_self c t)
    · exact Or.inr (List.mem_cons_of_mem c h)

lemma runBest_fst {β : Type} (cands : List (ℝ × β)) :
    (runBest cands).1 = (cands.map Prod.fst).foldl max 0 := by
  unfold runBest
  suffices h : ∀ (b : ℝ) (e : Option β),
      (cands.foldl (fun st c => if st.1 < c.1 then (c.1, some c.2) else st) (b, e)).1
        = (cands.map Prod.fst).foldl max b from h 0 none
  induction cands with
  | nil => intro b e; rfl
  | cons c t ih =>
    intro b e
    simp only [List.foldl_cons, List.map_cons]
    by_cases h : b < c.1
    · rw [if_pos h, ih]
      congr 1
      exact (max_eq_right h.le).symm
    · rw [if_neg h, ih]
      congr 1
      exact (max_eq_left (not_lt.1 h)).symm

lemma runBest_fst_nonneg {β : Type} (cands : List (ℝ × β)) :
    0 ≤ (runBest cands).1 := by
  rw [runBest_fst]
  exact le_foldl_max _ 0

lemma runBest_fst_le_one {β : Type} {cands : List (ℝ × β)}
    (h : ∀ c ∈ cands, c.1 ≤ (1 : ℝ)) : (runBest cands).1 ≤ 1 := by
  rw [runBest_fst]
  refine foldl_max_le (by norm_num) ?_
  intro x hx
  obtain ⟨c, hc, rfl⟩ := List.mem_map.1 hx
  exact h c hc

lemma runBest_cand_le {β : Type} {cands : List (ℝ × β)} {c : ℝ × β}
    (hc : c ∈ cands) : c.1 ≤ (runBest cands).1 := by
  rw [runBest_fst]
  exact mem_le_foldl_max (List.mem_map_of_mem Prod.fst hc) 0

lemma runBest_fst_mem {β : Type} {cands : List (ℝ × β)} (hne : cands ≠ [])
    (h0 : ∀ c ∈ cands, 0 ≤ c.1) : (runBest cands).1 ∈ cands.map Prod.fst := by
  rcases foldl_max_choice (cands.map Prod.fst) 0 with h | h
  · cases cands with
    | nil => exact absurd rfl hne
    | cons c t =>
      have hmem : c.1 ∈ (c :: t).map Prod.fst := by simp
      have hle : c.1 ≤ ((c :: t).map Prod.fst).foldl max 0 := mem_le_foldl_max hmem 0
      have h00 : 0 ≤ c.1 := h0 c (List.mem_cons_self c t)
      have : c.1 = (runBest (c :: t)).1 := by
        rw [runBest_fst] at *
        rw [h] at hle ⊢
        linarith
      rw [← this]
      exact hmem
  · rw [runBest_fst]
    exact h

lemma runBest_snd_of_fst_eq_zero {β : Type} {cands : List (ℝ × β)}
    (h : (runBest cands).1 = 0) : (runBest cands).2 = none := by
  unfold runBest at *
  suffices key : ∀ (b : ℝ) (e : Option β), 0 ≤ b → (b = 0 → e = none) →
      ((cands.foldl (fun st c => if st.1 < c.1 then (c.1, some c.2) else st) (b, e)).1 = 0 →
        (cands.foldl (fun st c => if st.1 < c.1 then (c.1, some c.2) else st) (b, e)).2 = none) from
    key 0 none (le_refl 0) (fun _ => rfl) h
  clear h
  induction cands with
  | nil =>
    intro b e hb hbe hf
    exact hbe hf
  | cons c t ih =>
    intro b e hb hbe hf
    simp only [List.foldl_cons] at hf ⊢
    by_cases hlt : b < c.1
    · rw [if_pos hlt] at hf ⊢
      exfalso
      have hmono : c.1 ≤ (t.foldl (fun st c => if st.1 < c.1 then (c.1, some c.2) else st)
          (c.1, some c.2)).1 := by
        have := runBest_fst (β := β)
        -- reuse the generalized fst computation
        have hfst : ∀ (b : ℝ) (e : Option β),
            (t.foldl (fun st c => if st.1 < c.1 then (c.1, some c.2) else st) (b, e)).1
              = (t.map Prod.fst).foldl max b := by
          clear hf hbe hb hlt ih
          induction t with
          | nil => intro b e; rfl
          | cons d s ihs =>
            intro b e
            simp only [List.foldl_cons, List.map_cons]
            by_cases hd : b < d.1
            · rw [if_pos hd, ihs]
              congr 1
              exact (max_eq_right hd.le).symm
            · rw [if_neg hd, ihs]
              congr 1
              exact (max_eq_left (not_lt.1 hd)).symm
        rw [hfst]
        exact le_foldl_max _ _
      have : (0 : ℝ) < c.1 := lt_of_le_of_lt hb hlt
      rw [hf] at hmono
      linarith
    · rw [if_neg hlt] at hf ⊢
      exact ih b e hb hbe hf

/-! Evaluation lemmas for circular_mean. -/

/-- On a one-element list the vector branch of circular_mean reduces to the
angle itself modulo 360: the unit vector at the angle is never shorter than
the epsilon of the degenerate test, and the argument of the unit vector at
angle theta is theta reduced into the interval (-pi, pi]. -/
lemma circular_mean_singleton (a : ℝ) : circular_mean [a] = fmod a 360 := by
  have hpi := Real.pi_pos
  have h2pi : (0:ℝ) < 2 * Real.pi := by linarith
  set θ := a * Real.pi / 180 with hθ
  have hne : ¬(|Real.sin θ| < 1e-14 ∧ |Real.cos θ| < 1e-14) := by
    rintro ⟨hs, hc⟩
    have h1 : Real.sin θ ^ 2 + Real.cos θ ^ 2 = 1 := Real.sin_sq_add_cos_sq θ
    have hs2 : Real.sin θ ^ 2 < (1e-14 : ℝ) ^ 2 := by
      have := abs_nonneg (Real.sin θ)
      nlinarith [sq_abs (Real.sin θ)]
    have hc2 : Real.cos θ ^ 2 < (1e-14 : ℝ) ^ 2 := by
      have := abs_nonneg (Real.cos θ)
      nlinarith [sq_abs (Real.cos θ)]
    nlinarith
  have hstep : circular_mean [a]
      = fmod ((Complex.arg (Real.cos θ + Real.sin θ * Complex.I)) * 180 / Real.pi) 360 := by
    simp only [circular_mean, List.map_cons, List.map_nil, List.sum_cons, List.sum_nil,
      add_zero, ← hθ]
    rw [if_neg hne]
  rw [hstep]
  set k : ℤ := ⌈θ / (2 * Real.pi) - 1 / 2⌉ with hk
  have hkl : (k : ℝ) ≥ θ / (2 * Real.pi) - 1 / 2 := Int.le_ceil _
  have hku : (k : ℝ) < θ / (2 * Real.pi) + 1 / 2 := by
    have := Int.ceil_lt_add_one (θ / (2 * Real.pi) - 1 / 2)
    rw [← hk] at this
    linarith
  have hx : θ / (2 * Real.pi) * (2 * Real.pi) = θ := div_mul_cancel₀ _ (ne_of_gt h2pi)
  set θ' := θ - (k : ℝ) * (2 * Real.pi) with hθ'
  have hmem : θ' ∈ Set.Ioc (-Real.pi) Real.pi := by
    constructor
    · have hmul := mul_lt_mul_of_pos_right hku h2pi
      have hexp : (θ / (2 * Real.pi) + 1 / 2) * (2 * Real.pi)
          = θ / (2 * Real.pi) * (2 * Real.pi) + Real.pi := by ring
      rw [hexp, hx] at hmul
      rw [hθ']
      linarith
    · have hmul := mul_le_mul_of_nonneg_right hkl (le_of_lt h2pi)
      have hexp : (θ / (2 * Real.pi) - 1 / 2) * (2 * Real.pi)
          = θ / (2 * Real.pi) * (2 * Real.pi) - Real.pi := by ring
      rw [hexp, hx] at hmul
      rw [hθ']
      linarith
  have hcos : Real.cos θ = Real.cos θ' := (Real.cos_sub_int_mul_two_pi θ k).symm
  have hsin : Real.sin θ = Real.sin θ' := (Real.sin_sub_int_mul_two_pi θ k).symm
  rw [hcos, hsin]
  have harg : Complex.arg (Real.cos θ' + Real.sin θ' * Complex.I) = θ' := by
    rw [Complex.ofReal_cos, Complex.ofReal_sin]
    exact Complex.arg_cos_add_sin_mul_I hmem
  rw [harg]
  have hval : θ' * 180 / Real.pi = a - 360 * k := by
    rw [hθ', hθ]
    field_simp
    ring
  rw [hval]
  rw [show a - 360 * (k:ℝ) = a + 360 * ((-k : ℤ) : ℝ) by push_cast; ring]
  exact fmod_add_int_mul a (by norm_num) (-k)

/-- For the evenly spread angles 0, 120, 240 both unit-vector sums vanish
exactly, so circular_mean falls back to the first angle of the list. -/
lemma circular_mean_evenly : circular_mean [0, 120, 240] = 0 := by
  have e1 : Real.sin ((0:ℝ) * Real.pi / 180) = 0 := by norm_num
  have f1 : Real.cos ((0:ℝ) * Real.pi / 180) = 1 := by norm_num
  have e2 : Real.sin ((120:ℝ) * Real.pi / 180) = Real.sqrt 3 / 2 := by
    rw [show (120:ℝ) * Real.pi / 180 = Real.pi - Real.pi / 3 by ring,
      Real.sin_pi_sub, Real.sin_pi_div_three]
  have f2 : Real.cos ((120:ℝ) * Real.pi / 180) = -(1 / 2) := by
    rw [show (120:ℝ) * Real.pi / 180 = Real.pi - Real.pi / 3 by ring,
      Real.cos_pi_sub, Real.cos_pi_div_three]
  have e3 : Real.sin ((240:ℝ) * Real.pi / 180) = -(Real.sqrt 3 / 2) := by
    have h := Real.sin_sub_int_mul_two_pi ((240:ℝ) * Real.pi / 180) 1
    have harg : (240:ℝ) * Real.pi / 180 - ((1:ℤ) : ℝ) * (2 * Real.pi)
        = -(Real.pi - Real.pi / 3) := by push_cast; ring
    rw [harg, Real.sin_neg, Real.sin_pi_sub, Real.sin_pi_div_three] at h
    exact h.symm
  have f3 : Real.cos ((240:ℝ) * Real.pi / 180) = -(1 / 2) := by
    have h := Real.cos_sub_int_mul_two_pi ((240:ℝ) * Real.pi / 180) 1
    have harg : (240:ℝ) * Real.pi / 180 - ((1:ℤ) : ℝ) * (2 * Real.pi)
        = -(Real.pi - Real.pi / 3) := by push_cast; ring
    rw [harg, Real.cos_neg, Real.cos_pi_sub, Real.cos_pi_div_three] at h
    exact h.symm
  simp only [circular_mean, List.map_cons, List.map_nil, List.sum_cons, List.sum_nil, add_zero]
  rw [e1, e2, e3, f1, f2, f3]
  norm_num

/-! Cardinality lemmas for the fixed-size scorers. -/

lemma length_pysorted (l : List ℝ) : (pysorted l).length = l.length :=
  (List.perm_insertionSort _ _).length_eq

lemma score_triadic_of_length_ne {hues : List ℝ} (tol : ℝ) (h : hues.length ≠ 3) :
    score_triadic hues tol = (0, none) := by
  have hl : (pysorted hues).length = hues.length := length_pysorted hues
  unfold score_triadic
  rcases hs : pysorted hues with _ | ⟨a, _ | ⟨b, _ | ⟨c, _ | ⟨d, t⟩⟩⟩⟩
  · rfl
  · rfl
  · rfl
  · rw [hs] at hl
    simp at hl
    exact absurd hl.symm h
  · rfl

lemma score_square_of_length_ne {hues : List ℝ} (tol : ℝ) (h : hues.length ≠ 4) :
    score_square hues tol = (0, none) := by
  have hl : (pysorted hues).length = hues.length := length_pysorted hues
  unfold score_square
  rcases hs : pysorted hues with _ | ⟨a, _ | ⟨b, _ | ⟨c, _ | ⟨d, _ | ⟨e, t⟩⟩⟩⟩⟩
  · rfl
  · rfl
  · rfl
  · rfl
  · rw [hs] at hl
    simp at hl
    exact absurd hl.symm h
  · rfl

/-! Claim theorems. -/

/-- C9: circular_diff is symmetric, vanishes on equal angles, equals 180 on
antipodal angles, and its value always lies in the interval [0, 180]. -/
theorem claim_C9_circular_diff (a b : ℝ) :
    circular_diff a b = circular_diff b a ∧ circular_diff a a = 0 ∧
    circular_diff a (a + 180) = 180 ∧
    0 ≤ circular_diff a b ∧ circular_diff a b ≤ 180 :=
  ⟨circular_diff_comm a b, circular_diff_self a, circular_diff_add_180 a,
   circular_diff_nonneg a b, circular_diff_le_180 a b⟩

/-- C2, evaluation at the failing input: with the unnormalized hue list
[0, 500] the naive range 500 exceeds 180, the wrap adjustment produces the
negative range 360 - 500 = -140, and score_monochromatic returns
1 + 140 / 120 = 13 / 6, which is greater than 1, contradicting the claimed
[0, 1] bound (and the docstring of the function itself). -/
theorem claim_C2_mono_score_exceeds_one :
    (score_monochromatic [0, 500]).1 = 13 / 6 ∧ (1 : ℝ) < (score_monochromatic [0, 500]).1 := by
  constructor <;>
    norm_num [score_monochromatic, pymin, pymax, List.foldl]

/-- C3, counterexample: score_monochromatic is not invariant under
per-element mod-360 normalization: on [0, 500] it returns 13 / 6, while on
the normalized list [0, 140] it returns 0. -/
theorem claim_C3_counterexample :
    (score_monochromatic ([0, 500].map (fun h => fmod h 360))).1 ≠
      (score_monochromatic [0, 500]).1 := by
  have h1 : fmod (0 : ℝ) 360 = 0 := fmod_eq_self (le_refl 0) (by norm_num)
  have h2 : fmod (500 : ℝ) 360 = 140 := fmod360_eq 1 (by norm_num) (by norm_num) (by norm_num)
  simp only [List.map_cons, List.map_nil, h1, h2]
  norm_num [score_monochromatic, pymin, pymax, List.foldl]

/-- C8: circular_mean returns 0 on the empty list and 45 on [0, 90]; for two
angles it walks half the shorter arc from the first angle toward the second,
falling back to the arithmetic mean of the normalized angles when they are
antipodal within tolerance, so that the mean of [0, 180] is 90; and when the
unit-vector sums of a list not of length two both vanish within 1e-14 it
returns the first angle of the list, so the mean of [0, 120, 240] is 0. -/
theorem claim_C8_circular_mean :
    circular_mean [] = 0 ∧ circular_mean [0, 90] = 45 ∧ circular_mean [0, 180] = 90 ∧
    circular_mean [0, 120, 240] = 0 ∧
    (∀ x y : ℝ, |circular_diff (fmod x 360) (fmod y 360) - 180| < 1e-10 →
      circular_mean [x, y] = fmod ((fmod x 360 + fmod y 360) / 2) 360) ∧
    (∀ x y : ℝ, ¬ |circular_diff (fmod x 360) (fmod y 360) - 180| < 1e-10 →
      circular_mean [x, y] =
        if fmod (fmod y 360 - fmod x 360) 360 ≤ 180
        then fmod (fmod x 360 + circular_diff (fmod x 360) (fmod y 360) / 2) 360
        else fmod (fmod x 360 - circular_diff (fmod x 360) (fmod y 360) / 2) 360) ∧
    (∀ (x : ℝ) (rest : List ℝ), rest.length ≠ 1 →
      |((x :: rest).map (fun t => Real.sin (t * Real.pi / 180))).sum| < 1e-14 →
      |((x :: rest).map (fun t => Real.cos (t * Real.pi / 180))).sum| < 1e-14 →
      circular_mean (x :: rest) = x) := by
  refine ⟨rfl, ?_, ?_, circular_mean_evenly, ?_, ?_, ?_⟩
  · norm_num [circular_mean, circular_diff, fmod]
  · norm_num [circular_mean, circular_diff, fmod]
  · intro x y h
    simp only [circular_mean]
    rw [if_pos h]
  · intro x y h
    simp only [circular_mean]
    rw [if_neg h]
  · intro x rest hlen hs hc
    rcases rest with _ | ⟨r1, _ | ⟨r2, t⟩⟩
    · simp only [circular_mean]
      rw [if_pos ⟨hs, hc⟩]
    · simp at hlen
    · simp only [circular_mean]
      rw [if_pos ⟨hs, hc⟩]

/-- Witness for C8: the antipodal fallback applied at the concrete pair
(0, 180), whose hypothesis holds by computation. -/
theorem claim_C8_witness :
    |circular_diff (fmod 0 360) (fmod 180 360) - 180| < 1e-10 ∧
      circular_mean [0, 180] = fmod ((fmod 0 360 + fmod 180 360) / 2) 360 := by
  have h : |circular_diff (fmod 0 360) (fmod 180 360) - 180| < 1e-10 := by
    norm_num [circular_diff, fmod]
  exact ⟨h, claim_C8_circular_mean.2.2.2.2.1 0 180 h⟩

/-- C6: a perfect triadic palette scores exactly 1, any palette without
exactly three hues scores 0, and moving one hue of [0, 90, 240] toward the
ideal spacing strictly increases the score. -/
theorem claim_C6_score_triadic :
    (score_triadic [0, 120, 240]).1 = 1 ∧
    (∀ (hues : List ℝ) (tol : ℝ), hues.length ≠ 3 → (score_triadic hues tol).1 = 0) ∧
    (score_triadic [0, 90, 240]).1 < (score_triadic [0, 110, 240]).1 := by
  refine ⟨?_, ?_, ?_⟩
  · norm_num [score_triadic, pysorted, List.insertionSort, List.orderedInsert,
      runBest, triadicCandidate, circular_diff, fmod, List.foldl]
  · intro hues tol h
    rw [score_triadic_of_length_ne tol h]
  · have h1 : (score_triadic [0, 90, 240]).1 = 1 / 3 := by
      norm_num [score_triadic, pysorted, List.insertionSort, List.orderedInsert,
        runBest, triadicCandidate, circular_diff, fmod, List.foldl]
    have h2 : (score_triadic [0, 110, 240]).1 = 7 / 9 := by
      norm_num [score_triadic, pysorted, List.insertionSort, List.orderedInsert,
        runBest, triadicCandidate, circular_diff, fmod, List.foldl]
    rw [h1, h2]
    norm_num

/-- Witness for C6: the wrong-cardinality conjunct applied at the concrete
two-hue palette [0, 120]. -/
theorem claim_C6_witness :
    ([0, 120] : List ℝ).length ≠ 3 ∧ (score_triadic [0, 120] 30).1 = 0 :=
  ⟨by simp, claim_C6_score_triadic.2.1 [0, 120] 30 (by simp)⟩

/-- C10: for the multi-hue searching scorers, an input of valid cardinality
on which the best candidate score is 0 produces the very same all-None
explanation that wrong cardinality produces, because an arrangement is
recorded only when its score is strictly positive. -/
theorem claim_C10_zero_score_sentinel :
    (∀ (hues : List ℝ) (tol : ℝ), hues.length = 3 → (score_triadic hues tol).1 = 0 →
      (score_triadic hues tol).2 = none) ∧
    (∀ (hues : List ℝ) (tol : ℝ), hues.length = 4 → (score_square hues tol).1 = 0 →
      (score_square hues tol).2 = none) ∧
    (∀ (hues : List ℝ) (tm ts : ℝ), 3 ≤ hues.length →
      (score_complementary hues tm ts).1 = 0 → (score_complementary hues tm ts).2 = none) ∧
    (∀ (hues : List ℝ) (tm ts : ℝ), 3 ≤ hues.length →
      (score_split_complementary hues tm ts).1 = 0 →
      (score_split_complementary hues tm ts).2 = none) ∧
    (∀ (hues : List ℝ) (tol : ℝ), hues.length ≠ 3 → score_triadic hues tol = (0, none)) ∧
    (∀ (hues : List ℝ) (tol : ℝ), hues.length ≠ 4 → score_square hues tol = (0, none)) ∧
    (∀ (hues : List ℝ) (tm ts : ℝ), hues.length < 2 →
      score_complementary hues tm ts = (0, none)) ∧
    (∀ (hues : List ℝ) (tm ts : ℝ), hues.length < 3 →
      score_split_complementary hues tm ts = (0, none)) := by
  refine ⟨?_, ?_, ?_, ?_, ?_, ?_, ?_, ?_⟩
  · intro hues tol hlen h0
    unfold score_triadic at h0 ⊢
    rcases hs : pysorted hues with _ | ⟨a, _ | ⟨b, _ | ⟨c, _ | ⟨d, t⟩⟩⟩⟩ <;> first
      | rfl
      | (rw [hs] at h0; exact runBest_snd_of_fst_eq_zero h0)
  · intro hues tol hlen h0
    unfold score_square at h0 ⊢
    rcases hs : pysorted hues with _ | ⟨a, _ | ⟨b, _ | ⟨c, _ | ⟨d, _ | ⟨e, t⟩⟩⟩⟩⟩ <;> first
      | rfl
      | (rw [hs] at h0; exact runBest_snd_of_fst_eq_zero h0)
  · intro hues tm ts hlen h0
    rcases hues with _ | ⟨h1, _ | ⟨h2, _ | ⟨h3, t⟩⟩⟩
    · simp at hlen
    · simp at hlen
    · simp at hlen
    · simp only [score_complementary] at h0 ⊢
      exact runBest_snd_of_fst_eq_zero h0
  · intro hues tm ts hlen h0
    unfold score_split_complementary at h0 ⊢
    rw [if_neg (not_lt.2 hlen)] at h0 ⊢
    exact runBest_snd_of_fst_eq_zero h0
  · intro hues tol h
    exact score_triadic_of_length_ne tol h
  · intro hues tol h
    exact score_square_of_length_ne tol h
  · intro hues tm ts h
    rcases hues with _ | ⟨h1, _ | ⟨h2, t⟩⟩
    · rfl
    · rfl
    · simp at h
      omega
  · intro hues tm ts h
    unfold score_split_complementary
    rw [if_pos h]

/-- Witness for C10: the all-zero triadic palette [0, 0, 0] has valid
cardinality, every rotation scores 0, and the explanation is the None
sentinel. -/
theorem claim_C10_witness :
    ([0, 0, 0] : List ℝ).length = 3 ∧ (score_triadic [0, 0, 0] 30).1 = 0 ∧
      (score_triadic [0, 0, 0] 30).2 = none := by
  have h0 : (score_triadic [0, 0, 0] 30).1 = 0 := by
    norm_num [score_triadic, pysorted, List.insertionSort, List.orderedInsert,
      runBest, triadicCandidate, circular_diff, fmod, List.foldl]
  exact ⟨by simp, h0, claim_C10_zero_score_sentinel.1 [0, 0, 0] 30 (by simp) h0⟩

/-- C4, evaluation at the failing input: on the palette [0, 90, 180, 270]
the rotation search of score_analogous reports min_arc = 90 with score 1/4,
because circular_diff caps every measured arc at 180 degrees, while the
smallest circular arc containing all four hues has size 270 (which under
the claimed formula would give score 0).  This contradicts the comment of
the source (find the smallest arc that contains all hues). -/
theorem claim_C4_analogous_arc_bug :
    (score_analogous [0, 90, 180, 270]).1 = 1 / 4 ∧
    (score_analogous [0, 90, 180, 270]).2.2 = some 90 ∧
    specSmallestContainingArc [0, 90, 180, 270] = 270 ∧
    ((90 : ℝ) ≠ 270 ∧ max 0 (1 - (270 : ℝ) / 120) = 0) := by
  refine ⟨?_, ?_, ?_, by norm_num, by norm_num⟩
  · rw [score_analogous, if_neg (by simp)]
    norm_num [pysorted, List.insertionSort, List.orderedInsert,
      rotate, runMin, List.foldl, List.range_succ, circular_diff, fmod]
  · rw [score_analogous, if_neg (by simp)]
    norm_num [pysorted, List.insertionSort, List.orderedInsert,
      rotate, runMin, List.foldl, List.range_succ, circular_diff, fmod]
  · norm_num [specSmallestContainingArc, pysorted, List.insertionSort,
      List.orderedInsert, rotate, List.foldl, List.range_succ, fmod]

/-- The candidate score inspected by score_complementary for rotation i of
the sorted hues and cut position k, at the default tolerances 60 and 120:
the weighted combination of the deviation of the cluster means from 180
degrees and of the average cluster spread, as stated by the spec. -/
noncomputable def compCandidateAt (hues : List ℝ) (i k : ℕ) : ℝ :=
  compCandidate 60 120 ((rotate (pysorted hues) i).take k) ((rotate (pysorted hues) i).drop k)

lemma compCandidate_nonneg (tm ts : ℝ) (c1 c2 : List ℝ) :
    0 ≤ compCandidate tm ts c1 c2 := le_max_left 0 _

lemma score_complementary_of_length_lt {hues : List ℝ} (tm ts : ℝ)
    (h : hues.length < 2) : score_complementary hues tm ts = (0, none) := by
  rcases hues with _ | ⟨h1, _ | ⟨h2, t⟩⟩
  · rfl
  · rfl
  · simp at h
    omega

/-- C5: a perfect complementary pair scores 1, the two-hue score is strictly
monotone in the angular error, fewer than two hues score 0, two hues follow
the direct formula, and for three or more hues the returned score is the
greatest of the candidate scores over all rotations of the sorted hues and
all cut positions k between 1 and n - 1. -/
theorem claim_C5_score_complementary :
    (score_complementary [0, 180]).1 = 1 ∧
    (score_complementary [0, 150]).1 < (score_complementary [0, 170]).1 ∧
    (∀ (hues : List ℝ) (tm ts : ℝ), hues.length < 2 →
      (score_complementary hues tm ts).1 = 0) ∧
    (∀ x y tm ts : ℝ, (score_complementary [x, y] tm ts).1
      = max 0 (1 - |circular_diff x y - 180| / tm)) ∧
    (∀ hues : List ℝ, 3 ≤ hues.length →
      IsGreatest {s : ℝ | ∃ i < hues.length, ∃ k, 1 ≤ k ∧ k ≤ hues.length - 1 ∧
        s = compCandidateAt hues i k} (score_complementary hues).1) := by
  refine ⟨?_, ?_, ?_, ?_, ?_⟩
  · norm_num [score_complementary, circular_diff, fmod]
  · have h1 : (score_complementary [0, 150]).1 = 1 / 2 := by
      norm_num [score_complementary, circular_diff, fmod]
    have h2 : (score_complementary [0, 170]).1 = 5 / 6 := by
      norm_num [score_complementary, circular_diff, fmod]
    rw [h1, h2]
    norm_num
  · intro hues tm ts h
    rw [score_complementary_of_length_lt tm ts h]
  · intro x y tm ts
    simp only [score_complementary]
  · intro hues hlen
    rcases hues with _ | ⟨h1, _ | ⟨h2, _ | ⟨h3, t⟩⟩⟩
    · simp at hlen
    · simp at hlen
    · simp at hlen
    · set hs : List ℝ := h1 :: h2 :: h3 :: t with hhs
      set n := hs.length with hn
      have hn3 : 3 ≤ n := hlen
      set cands := (List.range n).flatMap (fun i =>
        let rotated := rotate (pysorted hs) i
        (List.range' 1 (n - 1)).map (fun k =>
          let cluster1 := rotated.take k
          let cluster2 := rotated.drop k
          (compCandidate 60 120 cluster1 cluster2,
           (cluster1, cluster2, circular_mean cluster1, circular_mean cluster2))))
        with hcands
      have hscore : score_complementary hs = runBest cands := by
        rw [hhs, hcands]
        simp only [score_complementary]
      have hmemc : ∀ i k : ℕ, i < n → 1 ≤ k → k ≤ n - 1 →
          (compCandidateAt hs i k,
            ((rotate (pysorted hs) i).take k, (rotate (pysorted hs) i).drop k,
             circular_mean ((rotate (pysorted hs) i).take k),
             circular_mean ((rotate (pysorted hs) i).drop k))) ∈ cands := by
        intro i k hi hk1 hk2
        rw [hcands]
        refine List.mem_flatMap.2 ⟨i, List.mem_range.2 hi, ?_⟩
        refine List.mem_map.2 ⟨k, List.mem_range'_1.2 ⟨hk1, ?_⟩, rfl⟩
        omega
      constructor
      case right =>
        rintro s ⟨i, hi, k, hk1, hk2, rfl⟩
        rw [hscore]
        exact runBest_cand_le (hmemc i k hi hk1 hk2)
      case left =>
        have hne : cands ≠ [] :=
          List.ne_nil_of_mem (hmemc 0 1 (by omega) le_rfl (by omega))
        have hpos : ∀ c ∈ cands, 0 ≤ c.1 := by
          intro c hc
          rw [hcands] at hc
          obtain ⟨i, _, hc2⟩ := List.mem_flatMap.1 hc
          obtain ⟨k, _, rfl⟩ := List.mem_map.1 hc2
          exact compCandidate_nonneg _ _ _ _
        have hmem := runBest_fst_mem hne hpos
        obtain ⟨c, hc, hfst⟩ := List.mem_map.1 hmem
        rw [hcands] at hc
        obtain ⟨i, hi, hc2⟩ := List.mem_flatMap.1 hc
        obtain ⟨k, hk, rfl⟩ := List.mem_map.1 hc2
        obtain ⟨hk1, hk2⟩ := List.mem_range'_1.1 hk
        refine ⟨i, List.mem_range.1 hi, k, hk1, by omega, ?_⟩
        rw [hscore, ← hfst]
        rfl

/-- Witness for C5: the search characterization applied at the concrete
three-hue palette [0, 10, 180]. -/
theorem claim_C5_witness :
    3 ≤ ([0, 10, 180] : List ℝ).length ∧
      IsGreatest {s : ℝ | ∃ i < ([0, 10, 180] : List ℝ).length, ∃ k, 1 ≤ k ∧
        k ≤ ([0, 10, 180] : List ℝ).length - 1 ∧
        s = compCandidateAt [0, 10, 180] i k} (score_complementary [0, 10, 180]).1 :=
  ⟨by simp, claim_C5_score_complementary.2.2.2.2 [0, 10, 180] (by simp)⟩

lemma pysorted_eq_of_perm {l l' : List ℝ} (h : l.Perm l') : pysorted l = pysorted l' := by
  have h1 : List.Sorted (· ≤ ·) (pysorted l) := List.sorted_insertionSort _ l
  have h2 : List.Sorted (· ≤ ·) (pysorted l') := List.sorted_insertionSort _ l'
  have hp : (pysorted l).Perm (pysorted l') :=
    ((List.perm_insertionSort _ l).trans h).trans (List.perm_insertionSort _ l').symm
  exact List.eq_of_perm_of_sorted hp h1 h2

/-- C7: a perfect split-complementary palette scores exactly 1, and the
score of score_split_complementary is invariant under permutation of an
input with at least 3 hues, since the search sorts the normalized hues
first. -/
theorem claim_C7_split_complementary :
    (score_split_complementary [0, 150, 210]).1 = 1 ∧
    (∀ (l l' : List ℝ) (tm ts : ℝ), l.Perm l' → 3 ≤ l.length →
      (score_split_complementary l tm ts).1 = (score_split_complementary l' tm ts).1) := by
  constructor
  · have hm0 : circular_mean [(0:ℝ)] = 0 := by
      rw [circular_mean_singleton]
      exact fmod_eq_self le_rfl (by norm_num)
    have hm150 : circular_mean [(150:ℝ)] = 150 := by
      rw [circular_mean_singleton]
      exact fmod_eq_self (by norm_num) (by norm_num)
    have hm210 : circular_mean [(210:ℝ)] = 210 := by
      rw [circular_mean_singleton]
      exact fmod_eq_self (by norm_num) (by norm_num)
    have hn0 : fmod (0:ℝ) 360 = 0 := fmod_eq_self le_rfl (by norm_num)
    have hn150 : fmod (150:ℝ) 360 = 150 := fmod_eq_self (by norm_num) (by norm_num)
    have hn210 : fmod (210:ℝ) 360 = 210 := fmod_eq_self (by norm_num) (by norm_num)
    have hsort : pysorted [(0:ℝ), 150, 210] = [0, 150, 210] := by
      norm_num [pysorted, List.insertionSort, List.orderedInsert]
    have hc1 : (splitCandidate 15 45 [(0:ℝ)] [150] [210]).1 = 1 := by
      norm_num [splitCandidate, cluster_spread, pairwiseDiffs, hm0, hm150, hm210,
        circular_diff, fmod]
    have hc2 : (splitCandidate 15 45 [(150:ℝ)] [210] [0]).1 = 0 := by
      norm_num [splitCandidate, cluster_spread, pairwiseDiffs, hm0, hm150, hm210,
        circular_diff, fmod]
    have hc3 : (splitCandidate 15 45 [(210:ℝ)] [0] [150]).1 = 0 := by
      norm_num [splitCandidate, cluster_spread, pairwiseDiffs, hm0, hm150, hm210,
        circular_diff, fmod]
    rw [score_split_complementary, if_neg (by simp)]
    simp only [List.map_cons, List.map_nil, hn0, hn150, hn210, hsort,
      List.length_cons, List.length_nil]
    rw [show (0:ℕ) + 1 + 1 + 1 = 3 from rfl]
    rw [show List.range 3 = [0, 1, 2] from rfl]
    rw [show List.range' 1 (3 - 2) = [1] from rfl]
    simp only [List.flatMap_cons, List.flatMap_nil, List.map_cons, List.map_nil,
      List.append_nil, rotate, List.drop, List.take, List.nil_append, List.cons_append]
    rw [show List.range' (1 + 1) (3 - 1 - 1) = [2] from rfl]
    simp only [List.map_cons, List.map_nil]
    norm_num [runBest, List.foldl, hc1, hc2, hc3]
  · intro l l' tm ts hperm hlen
    have hlen' : l'.length = l.length := hperm.length_eq.symm
    have hsorted : pysorted (l.map (fun h => fmod h 360))
        = pysorted (l'.map (fun h => fmod h 360)) :=
      pysorted_eq_of_perm (hperm.map _)
    unfold score_split_complementary
    rw [if_neg (not_lt.2 hlen), if_neg (not_lt.2 (by omega))]
    dsimp only
    rw [hsorted]

/-- Witness for C7: permutation invariance applied to the concrete
permutation exchanging the first two hues of [0, 150, 210]. -/
theorem claim_C7_witness :
    ([0, 150, 210] : List ℝ).Perm [150, 0, 210] ∧ 3 ≤ ([0, 150, 210] : List ℝ).length ∧
      (score_split_complementary [0, 150, 210] 15 45).1
        = (score_split_complementary [150, 0, 210] 15 45).1 :=
  ⟨List.Perm.swap 150 0 [210], by simp,
   claim_C7_split_complementary.2 [0, 150, 210] [150, 0, 210] 15 45
     (List.Perm.swap 150 0 [210]) (by simp)⟩

lemma fmod_fmod (h : ℝ) : fmod (fmod h 360) 360 = fmod h 360 :=
  fmod_eq_self (fmod_nonneg _ (by norm_num)) (fmod_lt _ (by norm_num))

lemma circular_diff_fmod_fmod (a b : ℝ) :
    circular_diff (fmod a 360) (fmod b 360) = circular_diff a b :=
  (circular_diff_fmod_left _ _).trans (circular_diff_fmod_right _ _)

lemma triadicCandidate_rot (tol p q r : ℝ) :
    triadicCandidate tol p q r = triadicCandidate tol q r p := by
  unfold triadicCandidate
  dsimp only
  congr 1
  ring

lemma triadicCandidate_swap (tol p q r : ℝ) :
    triadicCandidate tol p q r = triadicCandidate tol q p r := by
  unfold triadicCandidate
  dsimp only
  rw [circular_diff_comm q p, circular_diff_comm p r, circular_diff_comm r q]
  congr 1
  ring

/-- On a three-element list the score component of score_triadic is exactly
the candidate score of the input order: every rotation of the sorted hues
compares the same three circular gaps against 120, so the rotation search
is constant, and the candidate score is invariant under all six orderings
of the three hues. -/
lemma score_triadic_three (tol x y z : ℝ) :
    (score_triadic [x, y, z] tol).1 = triadicCandidate tol x y z := by
  have hnn : 0 ≤ triadicCandidate tol x y z := le_max_left 0 _
  have finish : ∀ p q r : ℝ, pysorted [x, y, z] = [p, q, r] →
      triadicCandidate tol p q r = triadicCandidate tol x y z →
      (score_triadic [x, y, z] tol).1 = triadicCandidate tol x y z := by
    intro p q r hs heq
    have hrot1 : triadicCandidate tol q r p = triadicCandidate tol p q r :=
      (triadicCandidate_rot tol p q r).symm
    have hrot2 : triadicCandidate tol r p q = triadicCandidate tol p q r :=
      ((triadicCandidate_rot tol p q r).trans (triadicCandidate_rot tol q r p)).symm
    unfold score_triadic
    rw [hs]
    dsimp only
    rw [runBest_fst]
    simp only [List.map_cons, List.map_nil, List.foldl_cons, List.foldl_nil]
    rw [hrot1, hrot2, heq, max_eq_right hnn, max_self, max_self]
  rcases le_or_lt y z with hyz | hyz
  · rcases le_or_lt x y with hxy | hxy
    · exact finish x y z
        (by simp [pysorted, List.insertionSort, List.orderedInsert, hxy, hyz]) rfl
    · rcases le_or_lt x z with hxz | hxz
      · exact finish y x z
          (by simp [pysorted, List.insertionSort, List.orderedInsert, hyz, hxy.not_le, hxz])
          (triadicCandidate_swap tol y x z)
      · exact finish y z x
          (by simp [pysorted, List.insertionSort, List.orderedInsert, hyz,
            hxy.not_le, hxz.not_le])
          ((triadicCandidate_rot tol y z x).trans (triadicCandidate_rot tol z x y))
  · rcases le_or_lt x z with hxz | hxz
    · exact finish x z y
        (by simp [pysorted, List.insertionSort, List.orderedInsert, hyz.not_le, hxz])
        ((triadicCandidate_rot tol x z y).trans ((triadicCandidate_swap tol z y x).trans
          ((triadicCandidate_rot tol y z x).trans (triadicCandidate_rot tol z x y))))
    · rcases le_or_lt x y with hxy | hxy
      · exact finish z x y
          (by simp [pysorted, List.insertionSort, List.orderedInsert, hyz.not_le,
            hxz.not_le, hxy])
          (triadicCandidate_rot tol z x y)
      · exact finish z y x
          (by simp [pysorted, List.insertionSort, List.orderedInsert, hyz.not_le,
            hxz.not_le, hxy.not_le])
          ((triadicCandidate_swap tol z y x).trans
            ((triadicCandidate_rot tol y z x).trans (triadicCandidate_rot tol z x y)))

/-- C3 as amended: of the relative scorers, score_triadic and
score_split_complementary return the same score when every hue is replaced
by its mod-360 normalization (the remaining scorers are not invariant in
general, as the counterexample for score_monochromatic shows). -/
theorem claim_C3_amended (hues : List ℝ) (tol tm ts : ℝ) :
    (score_triadic (hues.map (fun h => fmod h 360)) tol).1 = (score_triadic hues tol).1 ∧
    (score_split_complementary (hues.map (fun h => fmod h 360)) tm ts).1
      = (score_split_complementary hues tm ts).1 := by
  constructor
  · by_cases hlen : hues.length = 3
    · rcases hues with _ | ⟨x, _ | ⟨y, _ | ⟨z, _ | ⟨w, t⟩⟩⟩⟩
      · simp at hlen
      · simp at hlen
      · simp at hlen
      · simp only [List.map_cons, List.map_nil]
        rw [score_triadic_three, score_triadic_three]
        unfold triadicCandidate
        dsimp only
        rw [circular_diff_fmod_fmod, circular_diff_fmod_fmod, circular_diff_fmod_fmod]
      · simp at hlen
    · have hlen' : (hues.map (fun h => fmod h 360)).length ≠ 3 := by
        rw [List.length_map]
        exact hlen
      rw [score_triadic_of_length_ne tol hlen', score_triadic_of_length_ne tol hlen]
  · by_cases hlen : 3 ≤ hues.length
    · have hlen' : ¬ (hues.map (fun h => fmod h 360)).length < 3 := by
        rw [List.length_map]
        exact not_lt.2 hlen
      have hmm : (hues.map (fun h => fmod h 360)).map (fun h => fmod h 360)
          = hues.map (fun h => fmod h 360) := by
        rw [List.map_map]
        exact List.map_congr_left fun a _ => fmod_fmod a
      unfold score_split_complementary
      rw [if_neg hlen', if_neg (not_lt.2 hlen)]
      dsimp only
      rw [hmm]
    · push_neg at hlen
      have hlen' : (hues.map (fun h => fmod h 360)).length < 3 := by
        rw [List.length_map]
        exact hlen
      unfold score_split_complementary
      rw [if_pos hlen', if_pos hlen]

/-! Bounds of the individual scorers, toward the aggregator contract. -/

lemma foldl_min_le (l : List ℝ) (b : ℝ) : l.foldl min b ≤ b := by
  induction l generalizing b with
  | nil => exact le_refl b
  | cons h t ih => exact le_trans (ih (min b h)) (min_le_left b h)

lemma le_foldl_min {l : List ℝ} {m : ℝ} {b : ℝ} (hb : m ≤ b) (h : ∀ x ∈ l, m ≤ x) :
    m ≤ l.foldl min b := by
  induction l generalizing b with
  | nil => exact hb
  | cons c t ih =>
    exact ih (le_min hb (h c (List.mem_cons_self c t))) fun x hx => h x (List.mem_cons_of_mem c hx)

lemma foldl_max_lt {l : List ℝ} {m : ℝ} {b : ℝ} (hb : b < m) (h : ∀ x ∈ l, x < m) :
    l.foldl max b < m := by
  induction l generalizing b with
  | nil => exact hb
  | cons c t ih =>
    exact ih (max_lt hb (h c (List.mem_cons_self c t))) fun x hx => h x (List.mem_cons_of_mem c hx)

lemma pymin_le_pymax {l : List ℝ} (h : l ≠ []) : pymin l ≤ pymax l := by
  cases l with
  | nil => exact absurd rfl h
  | cons a t => exact le_trans (foldl_min_le t a) (le_foldl_max t a)

lemma le_pymin {l : List ℝ} {m : ℝ} (hl : l ≠ []) (h : ∀ x ∈ l, m ≤ x) : m ≤ pymin l := by
  cases l with
  | nil => exact absurd rfl hl
  | cons a t =>
    exact le_foldl_min (h a (List.mem_cons_self a t)) fun x hx => h x (List.mem_cons_of_mem a hx)

lemma pymax_lt {l : List ℝ} {m : ℝ} (hl : l ≠ []) (h : ∀ x ∈ l, x < m) : pymax l < m := by
  cases l with
  | nil => exact absurd rfl hl
  | cons a t =>
    exact foldl_max_lt (h a (List.mem_cons_self a t)) fun x hx => h x (List.mem_cons_of_mem a hx)

lemma spread_nonneg (c : List ℝ) : 0 ≤ spread c := by
  unfold spread
  split_ifs with h
  · have hne : c ≠ [] := by
      intro hc
      rw [hc] at h
      simp at h
    linarith [pymin_le_pymax hne]
  · exact le_refl 0

lemma triadicCandidate_le_one {tol : ℝ} (htol : 0 ≤ tol) (p q r : ℝ) :
    triadicCandidate tol p q r ≤ 1 := by
  unfold triadicCandidate
  dsimp only
  apply max_le (by norm_num)
  have hd : 0 ≤ (|circular_diff p q - 120| + |circular_diff q r - 120|
      + |circular_diff r p - 120|) / (3 * tol) :=
    div_nonneg (by positivity) (by linarith)
  linarith

lemma squareCandidate_le_one {tol : ℝ} (htol : 0 ≤ tol) (p q r s : ℝ) :
    squareCandidate tol p q r s ≤ 1 := by
  unfold squareCandidate
  dsimp only
  apply max_le (by norm_num)
  have hd : 0 ≤ (|circular_diff p q - 90| + |circular_diff q r - 90|
      + |circular_diff r s - 90| + |circular_diff s p - 90|) / (4 * tol) :=
    div_nonneg (by positivity) (by linarith)
  linarith

lemma compCandidate_le_one {tm ts : ℝ} (htm : 0 ≤ tm) (hts : 0 ≤ ts)
    (c1 c2 : List ℝ) : compCandidate tm ts c1 c2 ≤ 1 := by
  unfold compCandidate
  dsimp only
  apply max_le (by norm_num)
  have h1 : 0 ≤ |circular_diff (circular_mean c1) (circular_mean c2) - 180| / tm :=
    div_nonneg (abs_nonneg _) htm
  have h2 : 0 ≤ (spread c1 + spread c2) / 2 / ts :=
    div_nonneg (div_nonneg (add_nonneg (spread_nonneg c1) (spread_nonneg c2)) (by norm_num)) hts
  nlinarith

lemma splitCandidate_fst_bounds (tm ts : ℝ) (b s1 s2 : List ℝ) :
    0 ≤ (splitCandidate tm ts b s1 s2).1 ∧ (splitCandidate tm ts b s1 s2).1 ≤ 1 := by
  have hb1 : ∀ u v : ℝ, (0:ℝ) ≤ max 0 (1 - (0.65 * u ^ 2 + 0.35 * v ^ 2)) ∧
      max 0 (1 - (0.65 * u ^ 2 + 0.35 * v ^ 2)) ≤ 1 := by
    intro u v
    refine ⟨le_max_left 0 _, max_le (by norm_num) ?_⟩
    nlinarith [sq_nonneg u, sq_nonneg v]
  unfold splitCandidate
  dsimp only
  split_ifs <;> exact hb1 _ _

lemma score_triadic_fst_bounds (hues : List ℝ) {tol : ℝ} (htol : 0 ≤ tol) :
    0 ≤ (score_triadic hues tol).1 ∧ (score_triadic hues tol).1 ≤ 1 := by
  unfold score_triadic
  rcases hs : pysorted hues with _ | ⟨a, _ | ⟨b, _ | ⟨c, _ | ⟨d, t⟩⟩⟩⟩
  · exact ⟨le_refl 0, by norm_num⟩
  · exact ⟨le_refl 0, by norm_num⟩
  · exact ⟨le_refl 0, by norm_num⟩
  · refine ⟨runBest_fst_nonneg _, runBest_fst_le_one ?_⟩
    intro x hx
    simp only [List.mem_cons, List.not_mem_nil, or_false] at hx
    rcases hx with rfl | rfl | rfl <;> exact triadicCandidate_le_one htol _ _ _
  · exact ⟨le_refl 0, by norm_num⟩

lemma score_square_fst_bounds (hues : List ℝ) {tol : ℝ} (htol : 0 ≤ tol) :
    0 ≤ (score_square hues tol).1 ∧ (score_square hues tol).1 ≤ 1 := by
  unfold score_square
  rcases hs : pysorted hues with _ | ⟨a, _ | ⟨b, _ | ⟨c, _ | ⟨d, _ | ⟨e, t⟩⟩⟩⟩⟩
  · exact ⟨le_refl 0, by norm_num⟩
  · exact ⟨le_refl 0, by norm_num⟩
  · exact ⟨le_refl 0, by norm_num⟩
  · exact ⟨le_refl 0, by norm_num⟩
  · refine ⟨runBest_fst_nonneg _, runBest_fst_le_one ?_⟩
    intro x hx
    simp only [List.mem_cons, List.not_mem_nil, or_false] at hx
    rcases hx with rfl | rfl | rfl | rfl <;> exact squareCandidate_le_one htol _ _ _ _
  · exact ⟨le_refl 0, by norm_num⟩

lemma score_complementary_fst_bounds (hues : List ℝ) {tm ts : ℝ}
    (htm : 0 ≤ tm) (hts : 0 ≤ ts) :
    0 ≤ (score_complementary hues tm ts).1 ∧ (score_complementary hues tm ts).1 ≤ 1 := by
  rcases hues with _ | ⟨h1, _ | ⟨h2, _ | ⟨h3, t⟩⟩⟩
  · exact ⟨le_refl 0, zero_le_one⟩
  · exact ⟨le_refl 0, zero_le_one⟩
  · simp only [score_complementary]
    refine ⟨le_max_left 0 _, max_le (by norm_num) ?_⟩
    have hd : 0 ≤ |circular_diff h1 h2 - 180| / tm := div_nonneg (abs_nonneg _) htm
    linarith
  · simp only [score_complementary]
    refine ⟨runBest_fst_nonneg _, runBest_fst_le_one ?_⟩
    intro c hc
    obtain ⟨i, _, hc2⟩ := List.mem_flatMap.1 hc
    obtain ⟨k, _, rfl⟩ := List.mem_map.1 hc2
    exact compCandidate_le_one htm hts _ _

lemma score_split_complementary_fst_bounds (hues : List ℝ) (tm ts : ℝ) :
    0 ≤ (score_split_complementary hues tm ts).1 ∧
      (score_split_complementary hues tm ts).1 ≤ 1 := by
  unfold score_split_complementary
  split_ifs with h
  · exact ⟨le_refl 0, by norm_num⟩
  · refine ⟨runBest_fst_nonneg _, runBest_fst_le_one ?_⟩
    intro c hc
    obtain ⟨i, _, hc2⟩ := List.mem_flatMap.1 hc
    obtain ⟨j, _, hc3⟩ := List.mem_flatMap.1 hc2
    obtain ⟨k, _, rfl⟩ := List.mem_map.1 hc3
    exact (splitCandidate_fst_bounds _ _ _ _ _).2

lemma score_monochromatic_fst_bounds {hues : List ℝ} {tol : ℝ} (htol : 0 ≤ tol)
    (hb : ∀ h ∈ hues, 0 ≤ h ∧ h < 360) :
    0 ≤ (score_monochromatic hues tol).1 ∧ (score_monochromatic hues tol).1 ≤ 1 := by
  rcases hues with _ | ⟨a, t⟩
  · exact ⟨le_refl 0, zero_le_one⟩
  · simp only [score_monochromatic]
    have hne : (a :: t) ≠ [] := by simp
    have hminmax : pymin (a :: t) ≤ pymax (a :: t) := pymin_le_pymax hne
    have hmin : 0 ≤ pymin (a :: t) := le_pymin hne fun x hx => (hb x hx).1
    have hmax : pymax (a :: t) < 360 := pymax_lt hne fun x hx => (hb x hx).2
    refine ⟨le_max_left 0 _, max_le (by norm_num) ?_⟩
    have hd : 0 ≤ (if 180 < pymax (a :: t) - pymin (a :: t)
        then 360 - (pymax (a :: t) - pymin (a :: t))
        else pymax (a :: t) - pymin (a :: t)) / tol := by
      apply div_nonneg _ htol
      split_ifs with h
      · linarith
      · linarith
    linarith

lemma clamp_bounds (x : ℝ) : 0 ≤ min (max x 0) 1 ∧ min (max x 0) 1 ≤ 1 :=
  ⟨le_min (le_max_right x 0) (by norm_num), min_le_right _ _⟩

lemma score_contrast_absolute_bounds (colors : List PyColor) :
    0 ≤ score_contrast_absolute colors ∧ score_contrast_absolute colors ≤ 1 := by
  unfold score_contrast_absolute
  split_ifs with h
  · exact ⟨le_refl 0, by norm_num⟩
  · exact clamp_bounds _

lemma score_saturation_absolute_bounds (colors : List PyColor) :
    0 ≤ score_saturation_absolute colors ∧ score_saturation_absolute colors ≤ 1 := by
  unfold score_saturation_absolute
  dsimp only
  split_ifs with h h2
  · exact ⟨le_refl 0, zero_le_one⟩
  · exact ⟨le_refl 0, zero_le_one⟩
  · exact clamp_bounds _

lemma hsv_fst_bounds (c : PyColor) : 0 ≤ (hsv c).1 ∧ (hsv c).1 < 360 := by
  unfold hsv rgb_to_hsv
  exact ⟨Int.emod_nonneg _ (by norm_num), Int.emod_lt_of_pos _ (by norm_num)⟩

lemma score_split_complementary_of_length_lt {hues : List ℝ} (tm ts : ℝ)
    (h : hues.length < 3) : score_split_complementary hues tm ts = (0, none) := by
  unfold score_split_complementary
  rw [if_pos h]

/-- C1: for every palette of colors with 8-bit RGB components, the
aggregator returns an ordered mapping whose keys are exactly the seven
documented names in order, every value lies in [0, 1], and a scorer whose
cardinality requirement the palette does not meet contributes the entry
0.0. -/
theorem claim_C1_aggregator (palette : List PyColor)
    (hvalid : ∀ c ∈ palette, 0 ≤ c.rgb.1 ∧ c.rgb.1 ≤ 255 ∧ 0 ≤ c.rgb.2.1 ∧
      c.rgb.2.1 ≤ 255 ∧ 0 ≤ c.rgb.2.2 ∧ c.rgb.2.2 ≤ 255) :
    (analyze_palette_harmony palette).map Prod.fst =
      ["Triadic", "Square", "Complementary", "Split Complementary",
       "Monochromatic", "Contrast", "Saturation"] ∧
    (∀ p ∈ analyze_palette_harmony palette, 0 ≤ p.2 ∧ p.2 ≤ 1) ∧
    (palette.length ≠ 3 →
      (analyze_palette_harmony palette)[0]? = some ("Triadic", 0)) ∧
    (palette.length ≠ 4 →
      (analyze_palette_harmony palette)[1]? = some ("Square", 0)) ∧
    (palette.length < 2 →
      (analyze_palette_harmony palette)[2]? = some ("Complementary", 0)) ∧
    (palette.length < 3 →
      (analyze_palette_harmony palette)[3]? = some ("Split Complementary", 0)) := by
  have hlen : (palette.map (fun c => (((hsv c).1 : ℤ) : ℝ))).length = palette.length :=
    List.length_map _ _
  have hb : ∀ h ∈ palette.map (fun c => (((hsv c).1 : ℤ) : ℝ)), 0 ≤ h ∧ h < 360 := by
    intro h hh
    obtain ⟨c, _, rfl⟩ := List.mem_map.1 hh
    obtain ⟨h1, h2⟩ := hsv_fst_bounds c
    constructor
    · exact_mod_cast h1
    · exact_mod_cast h2
  refine ⟨rfl, ?_, ?_, ?_, ?_, ?_⟩
  · intro p hp
    simp only [analyze_palette_harmony, List.mem_cons, List.not_mem_nil, or_false] at hp
    rcases hp with rfl | rfl | rfl | rfl | rfl | rfl | rfl
    · exact score_triadic_fst_bounds _ (by norm_num)
    · exact score_square_fst_bounds _ (by norm_num)
    · exact score_complementary_fst_bounds _ (by norm_num) (by norm_num)
    · exact score_split_complementary_fst_bounds _ _ _
    · exact score_monochromatic_fst_bounds (by norm_num) hb
    · exact score_contrast_absolute_bounds palette
    · exact score_saturation_absolute_bounds palette
  · intro h
    simp only [analyze_palette_harmony, List.getElem?_cons_zero, Option.some.injEq]
    rw [score_triadic_of_length_ne 30 (by rw [hlen]; exact h)]
  · intro h
    simp only [analyze_palette_harmony, List.getElem?_cons_succ, List.getElem?_cons_zero,
      Option.some.injEq]
    rw [score_square_of_length_ne 15 (by rw [hlen]; exact h)]
  · intro h
    simp only [analyze_palette_harmony, List.getElem?_cons_succ, List.getElem?_cons_zero,
      Option.some.injEq]
    rw [score_complementary_of_length_lt 60 120 (by rw [hlen]; exact h)]
  · intro h
    simp only [analyze_palette_harmony, List.getElem?_cons_succ, List.getElem?_cons_zero,
      Option.some.injEq]
    rw [score_split_complementary_of_length_lt 15 45 (by rw [hlen]; exact h)]

/-- Witness for C1: the aggregator contract applied to a concrete
one-color palette. -/
theorem claim_C1_witness :
    (∀ c ∈ [PyColor.mk (10, 20, 30) (0, 0, 0)], 0 ≤ c.rgb.1 ∧ c.rgb.1 ≤ 255 ∧
      0 ≤ c.rgb.2.1 ∧ c.rgb.2.1 ≤ 255 ∧ 0 ≤ c.rgb.2.2 ∧ c.rgb.2.2 ≤ 255) ∧
    (analyze_palette_harmony [PyColor.mk (10, 20, 30) (0, 0, 0)]).map Prod.fst =
      ["Triadic", "Square", "Complementary", "Split Complementary",
       "Monochromatic", "Contrast", "Saturation"] ∧
    (∀ p ∈ analyze_palette_harmony [PyColor.mk (10, 20, 30) (0, 0, 0)],
      0 ≤ p.2 ∧ p.2 ≤ 1) := by
  have hv : ∀ c ∈ [PyColor.mk (10, 20, 30) (0, 0, 0)], 0 ≤ c.rgb.1 ∧ c.rgb.1 ≤ 255 ∧
      0 ≤ c.rgb.2.1 ∧ c.rgb.2.1 ≤ 255 ∧ 0 ≤ c.rgb.2.2 ∧ c.rgb.2.2 ≤ 255 := by
    intro c hc
    simp only [List.mem_singleton] at hc
    subst hc
    norm_num
  obtain ⟨h1, h2, _⟩ := claim_C1_aggregator [PyColor.mk (10, 20, 30) (0, 0, 0)] hv
  exact ⟨hv, h1, h2⟩

end ImageClassifier
